import Mathlib

/-!
Verification of the range-algebra core of `pandas/core/indexes/range.py`
(class `RangeIndex`).

A `RangeIndex` wraps a Python `range(start, stop, step)` object (`self._range`).
We embed that value as the triple `Rng` and embed each operation of the source
file as a Lean function on `Rng`.  Python's `//` and `%` on integers are floor
division and floor modulus, embedded as `Int.fdiv` / `Int.fmod`; Python's `/`
on integers always produces a float, embedded (exactly) as `ℚ`.
-/

/-- The value of `self._range`: a Python `range(start, stop, step)` triple.
The class invariant (enforced by `RangeIndex.__new__` and by
`RangeIndex._simple_new`) is `step ≠ 0`. -/
structure Rng where
  start : Int
  stop : Int
  step : Int
deriving DecidableEq, Repr

/-- Number of elements of a Python `range`, exactly CPython's formula:
for a positive step, `0` if `start ≥ stop` and `(stop - start - 1) // step + 1`
otherwise; symmetrically for a negative step.  This is what `len(self._range)`
returns in `RangeIndex.__len__`.  (All divisors used are positive, so `Int`
division `/` coincides with Python's floor division here.) -/
def rlen (r : Rng) : Nat :=
  if 0 < r.step then
    if r.start < r.stop then ((r.stop - r.start - 1) / r.step + 1).toNat else 0
  else
    if r.stop < r.start then ((r.start - r.stop - 1) / (-r.step) + 1).toNat else 0

/-- Materialization of the range (`RangeIndex.tolist`, `list(self._range)`,
also the values of the `_data` buffer `np.arange(start, stop, step)`):
the element at ordinal position `i` is `start + i * step`. -/
def tolist (r : Rng) : List Int :=
  (List.range (rlen r)).map (fun (i : Nat) => r.start + (i : Int) * r.step)

theorem rlen_mk (a b s : Int) :
    rlen ⟨a, b, s⟩ =
      if 0 < s then (if a < b then ((b - a - 1) / s + 1).toNat else 0)
      else (if b < a then ((a - b - 1) / (-s) + 1).toNat else 0) := rfl

theorem length_tolist (r : Rng) : (tolist r).length = rlen r := by
  rw [tolist, List.length_map, List.length_range]

theorem getElem_tolist (r : Rng) (j : Nat) (hj : j < (tolist r).length) :
    (tolist r)[j] = r.start + (j : Int) * r.step := by
  unfold tolist at hj ⊢
  rw [List.getElem_map, List.getElem_range]

theorem mem_tolist (a b s : Int) (x : Int) :
    x ∈ tolist ⟨a, b, s⟩ ↔ ∃ i : Nat, i < rlen ⟨a, b, s⟩ ∧ x = a + (i : Int) * s := by
  rw [tolist]
  constructor
  · intro hx
    obtain ⟨i, hi, he⟩ := List.mem_map.mp hx
    exact ⟨i, List.mem_range.mp hi, he.symm⟩
  · rintro ⟨i, hi, he⟩
    exact List.mem_map.mpr ⟨i, List.mem_range.mpr hi, he.symm⟩

/-- Arithmetic helper: `(n * s - 1) / s = n - 1` for a positive divisor `s`. -/
theorem ediv_pred_mul (n s : Int) (hs : 0 < s) : (n * s - 1) / s = n - 1 := by
  have h : n * s - 1 = (s - 1) + s * (n - 1) := by ring
  rw [h, Int.add_mul_ediv_left _ _ (ne_of_gt hs),
    Int.ediv_eq_zero_of_lt (by omega) (by omega), zero_add]

theorem lt_rlen_iff_pos (a b s : Int) (hs : 0 < s) (i : Nat) :
    i < rlen ⟨a, b, s⟩ ↔ a + (i : Int) * s < b := by
  have hi0 : (0 : Int) ≤ (i : Int) * s :=
    mul_nonneg (Int.natCast_nonneg i) (le_of_lt hs)
  rw [rlen_mk, if_pos hs]
  by_cases h : a < b
  · rw [if_pos h]
    have h1 : (0 : Int) ≤ (b - a - 1) / s := Int.ediv_nonneg (by omega) (le_of_lt hs)
    rw [Int.lt_toNat]
    constructor
    · intro hlt
      have h2 : (i : Int) ≤ (b - a - 1) / s := by omega
      have h3 : (i : Int) * s ≤ b - a - 1 := (Int.le_ediv_iff_mul_le hs).mp h2
      omega
    · intro hlt
      have h3 : (i : Int) * s ≤ b - a - 1 := by omega
      have h2 : (i : Int) ≤ (b - a - 1) / s := (Int.le_ediv_iff_mul_le hs).mpr h3
      omega
  · rw [if_neg h]
    constructor
    · omega
    · intro hlt
      omega

theorem lt_rlen_iff_neg (a b s : Int) (hs : s < 0) (i : Nat) :
    i < rlen ⟨a, b, s⟩ ↔ b < a + (i : Int) * s := by
  have hi0 : (i : Int) * s ≤ 0 :=
    mul_nonpos_of_nonneg_of_nonpos (Int.natCast_nonneg i) (le_of_lt hs)
  have hns : 0 < -s := by omega
  rw [rlen_mk, if_neg (by omega)]
  by_cases h : b < a
  · rw [if_pos h]
    have h1 : (0 : Int) ≤ (a - b - 1) / (-s) := Int.ediv_nonneg (by omega) (le_of_lt hns)
    rw [Int.lt_toNat]
    constructor
    · intro hlt
      have h2 : (i : Int) ≤ (a - b - 1) / (-s) := by omega
      have h3 : (i : Int) * (-s) ≤ a - b - 1 := (Int.le_ediv_iff_mul_le hns).mp h2
      have h4 : (i : Int) * (-s) = -((i : Int) * s) := by ring
      omega
    · intro hlt
      have h3 : (i : Int) * (-s) ≤ a - b - 1 := by
        have h4 : (i : Int) * (-s) = -((i : Int) * s) := by ring
        omega
      have h2 : (i : Int) ≤ (a - b - 1) / (-s) := (Int.le_ediv_iff_mul_le hns).mpr h3
      omega
  · rw [if_neg h]
    constructor
    · omega
    · intro hlt
      omega

theorem mem_tolist_pos (a b s : Int) (hs : 0 < s) (x : Int) :
    x ∈ tolist ⟨a, b, s⟩ ↔ a ≤ x ∧ x < b ∧ s ∣ (x - a) := by
  rw [mem_tolist]
  constructor
  · rintro ⟨i, hi, rfl⟩
    have hi0 : (0 : Int) ≤ (i : Int) * s :=
      mul_nonneg (Int.natCast_nonneg i) (le_of_lt hs)
    exact ⟨by omega, (lt_rlen_iff_pos a b s hs i).mp hi, ⟨i, by ring⟩⟩
  · rintro ⟨h1, h2, m, hm⟩
    have hm0 : 0 ≤ m := by
      by_contra hneg
      push_neg at hneg
      have : s * m < 0 := mul_neg_of_pos_of_neg hs hneg
      omega
    refine ⟨m.toNat, ?_, ?_⟩
    · rw [lt_rlen_iff_pos a b s hs, Int.toNat_of_nonneg hm0]
      have h4 : m * s = s * m := by ring
      omega
    · rw [Int.toNat_of_nonneg hm0]
      have h4 : m * s = s * m := by ring
      omega

theorem mem_tolist_neg (a b s : Int) (hs : s < 0) (x : Int) :
    x ∈ tolist ⟨a, b, s⟩ ↔ b < x ∧ x ≤ a ∧ s ∣ (x - a) := by
  rw [mem_tolist]
  constructor
  · rintro ⟨i, hi, rfl⟩
    have hi0 : (i : Int) * s ≤ 0 :=
      mul_nonpos_of_nonneg_of_nonpos (Int.natCast_nonneg i) (le_of_lt hs)
    exact ⟨(lt_rlen_iff_neg a b s hs i).mp hi, by omega, ⟨i, by ring⟩⟩
  · rintro ⟨h1, h2, m, hm⟩
    have hm0 : 0 ≤ m := by
      by_contra hneg
      push_neg at hneg
      have : 0 < s * m := mul_pos_of_neg_of_neg hs hneg
      omega
    refine ⟨m.toNat, ?_, ?_⟩
    · rw [lt_rlen_iff_neg a b s hs, Int.toNat_of_nonneg hm0]
      have h4 : m * s = s * m := by ring
      omega
    · rw [Int.toNat_of_nonneg hm0]
      have h4 : m * s = s * m := by ring
      omega

/-- Python's `r[::-1]` on a range (the slice taken in `RangeIndex.intersection`
and in `RangeIndex.__getitem__` for slice keys): it enumerates the same
elements backwards, i.e. `range(start + (n-1)*step, start - step, -step)`
where `n = len(r)`. -/
def rev (r : Rng) : Rng :=
  ⟨r.start + ((rlen r : Int) - 1) * r.step, r.start - r.step, -r.step⟩

theorem rev_mk (a b s : Int) :
    rev ⟨a, b, s⟩ = ⟨a + ((rlen ⟨a, b, s⟩ : Int) - 1) * s, a - s, -s⟩ := rfl

theorem rlen_rev_aux (a s : Int) (n : Nat) (hs : s ≠ 0) :
    rlen ⟨a + ((n : Int) - 1) * s, a - s, -s⟩ = n := by
  rcases lt_or_gt_of_ne hs with h | h
  · by_cases hn : n = 0
    · subst hn
      rw [rlen_mk, if_pos (by omega)]
      rw [if_neg (by push_cast; omega)]
    · have hn1 : (1 : Int) ≤ (n : Int) := by omega
      have hnn : 0 ≤ ((n : Int) - 1) * (-s) := mul_nonneg (by omega) (by omega)
      have hmul : ((n : Int) - 1) * (-s) = -(((n : Int) - 1) * s) := by ring
      rw [rlen_mk, if_pos (by omega), if_pos (by omega)]
      have he : a - s - (a + ((n : Int) - 1) * s) - 1 = (n : Int) * (-s) - 1 := by ring
      rw [he, ediv_pred_mul _ _ (by omega)]
      omega
  · by_cases hn : n = 0
    · subst hn
      rw [rlen_mk, if_neg (by omega)]
      rw [if_neg (by push_cast; omega)]
    · have hn1 : (1 : Int) ≤ (n : Int) := by omega
      have hnn : 0 ≤ ((n : Int) - 1) * s := mul_nonneg (by omega) (by omega)
      rw [rlen_mk, if_neg (by omega), if_pos (by omega)]
      have he : a + ((n : Int) - 1) * s - (a - s) - 1 = (n : Int) * s - 1 := by ring
      rw [he, neg_neg, ediv_pred_mul _ _ h]
      omega

theorem rlen_rev (r : Rng) (h : r.step ≠ 0) : rlen (rev r) = rlen r := by
  obtain ⟨a, b, s⟩ := r
  rw [rev_mk]
  exact rlen_rev_aux a s (rlen ⟨a, b, s⟩) h

theorem tolist_rev (r : Rng) (h : r.step ≠ 0) :
    tolist (rev r) = (tolist r).reverse := by
  apply List.ext_getElem
  · rw [length_tolist, List.length_reverse, length_tolist, rlen_rev r h]
  · intro i h1 h2
    have hi : i < rlen r := by
      have ha := length_tolist (rev r)
      have hb := rlen_rev r h
      omega
    rw [List.getElem_reverse, getElem_tolist, getElem_tolist]
    have hlen : (tolist r).length = rlen r := length_tolist r
    have hrs : (rev r).start = r.start + ((rlen r : Int) - 1) * r.step := rfl
    have hrp : (rev r).step = -r.step := rfl
    rw [hlen, hrs, hrp]
    have hc : ((rlen r - 1 - i : Nat) : Int) = (rlen r : Int) - 1 - (i : Int) := by
      omega
    rw [hc]
    ring

theorem mem_tolist_rev (r : Rng) (h : r.step ≠ 0) (x : Int) :
    x ∈ tolist (rev r) ↔ x ∈ tolist r := by
  rw [tolist_rev r h, List.mem_reverse]

theorem rlen_ceil_pos (a b s : Int) (hs : 0 < s) :
    rlen ⟨a, b, s⟩ = (-((a - b) / s)).toNat := by
  rw [rlen_mk, if_pos hs]
  by_cases h : a < b
  · rw [if_pos h]
    have hq := Int.ediv_add_emod (b - a - 1) s
    have hr0 : 0 ≤ (b - a - 1) % s := Int.emod_nonneg _ (ne_of_gt hs)
    have hrs : (b - a - 1) % s < s := Int.emod_lt_of_pos _ hs
    have he : a - b = (s - 1 - (b - a - 1) % s) + s * (-((b - a - 1) / s + 1)) := by
      linear_combination hq
    have hz : (s - 1 - (b - a - 1) % s) / s = 0 :=
      Int.ediv_eq_zero_of_lt (by omega) (by omega)
    rw [he, Int.add_mul_ediv_left _ _ (ne_of_gt hs), hz]
    omega
  · rw [if_neg h]
    have h1 : (0 : Int) ≤ (a - b) / s := Int.ediv_nonneg (by omega) (le_of_lt hs)
    omega

theorem rlen_flip (a b s : Int) (hs : s < 0) : rlen ⟨a, b, s⟩ = rlen ⟨b, a, -s⟩ := by
  rw [rlen_mk, rlen_mk, if_neg (by omega : ¬ (0 : Int) < s),
    if_pos (by omega : (0 : Int) < -s)]

theorem rlen_ceil_neg (a b s : Int) (hs : s < 0) :
    rlen ⟨a, b, s⟩ = (-((b - a) / (-s))).toNat := by
  rw [rlen_flip a b s hs, rlen_ceil_pos b a (-s) (by omega)]

theorem rlen_translate (a b s k : Int) : rlen ⟨a + k, b + k, s⟩ = rlen ⟨a, b, s⟩ := by
  rw [rlen_mk, rlen_mk]
  by_cases hs : 0 < s
  · rw [if_pos hs, if_pos hs]
    by_cases h : a < b
    · rw [if_pos (by omega), if_pos h]
      have h2 : b + k - (a + k) - 1 = b - a - 1 := by ring
      rw [h2]
    · rw [if_neg (by omega), if_neg h]
  · rw [if_neg hs, if_neg hs]
    by_cases h : b < a
    · rw [if_pos (by omega), if_pos h]
      have h3 : a + k - (b + k) - 1 = a - b - 1 := by ring
      rw [h3]
    · rw [if_neg (by omega), if_neg h]

theorem rlen_smul (a b s k : Int) (hs : s ≠ 0) (hk : k ≠ 0) :
    rlen ⟨a * k, b * k, s * k⟩ = rlen ⟨a, b, s⟩ := by
  rcases lt_or_gt_of_ne hs with hsn | hsp
  · rcases lt_or_gt_of_ne hk with hkn | hkp
    · have hsk : 0 < s * k := mul_pos_of_neg_of_neg hsn hkn
      rw [rlen_ceil_pos _ _ _ hsk, rlen_ceil_neg a b s hsn]
      have h1 : a * k - b * k = (-k) * (b - a) := by ring
      have h2 : s * k = (-k) * (-s) := by ring
      rw [h1, h2, Int.mul_ediv_mul_of_pos _ _ (by omega : (0 : Int) < -k)]
    · have hsk : s * k < 0 := mul_neg_of_neg_of_pos hsn hkp
      rw [rlen_ceil_neg _ _ _ hsk, rlen_ceil_neg a b s hsn]
      have h1 : b * k - a * k = k * (b - a) := by ring
      have h2 : -(s * k) = k * (-s) := by ring
      rw [h1, h2, Int.mul_ediv_mul_of_pos _ _ hkp]
  · rcases lt_or_gt_of_ne hk with hkn | hkp
    · have hsk : s * k < 0 := mul_neg_of_pos_of_neg hsp hkn
      rw [rlen_ceil_neg _ _ _ hsk, rlen_ceil_pos a b s hsp]
      have h1 : b * k - a * k = (-k) * (a - b) := by ring
      have h2 : -(s * k) = (-k) * s := by ring
      rw [h1, h2, Int.mul_ediv_mul_of_pos _ _ (by omega : (0 : Int) < -k)]
    · have hsk : 0 < s * k := mul_pos hsp hkp
      rw [rlen_ceil_pos _ _ _ hsk, rlen_ceil_pos a b s hsp]
      have h1 : a * k - b * k = k * (a - b) := by ring
      have h2 : s * k = k * s := by ring
      rw [h1, h2, Int.mul_ediv_mul_of_pos _ _ hkp]

theorem rlen_canonical (a s : Int) (n : Nat) (hs : s ≠ 0) :
    rlen ⟨a, a + (n : Int) * s, s⟩ = n := by
  rcases lt_or_gt_of_ne hs with hsn | hsp
  · by_cases hn : n = 0
    · subst hn
      rw [rlen_mk, if_neg (by omega), if_neg (by push_cast; omega)]
    · have hn1 : (1 : Int) ≤ (n : Int) := by omega
      have hnn : (n : Int) * s < 0 := mul_neg_of_pos_of_neg (by omega) hsn
      rw [rlen_mk, if_neg (by omega), if_pos (by omega)]
      have he : a - (a + (n : Int) * s) - 1 = (n : Int) * (-s) - 1 := by ring
      rw [he, ediv_pred_mul _ _ (by omega)]
      omega
  · by_cases hn : n = 0
    · subst hn
      rw [rlen_mk, if_pos hsp, if_neg (by push_cast; omega)]
    · have hn1 : (1 : Int) ≤ (n : Int) := by omega
      have hnn : 0 < (n : Int) * s := mul_pos (by omega) hsp
      rw [rlen_mk, if_pos hsp, if_pos (by omega)]
      have he : a + (n : Int) * s - a - 1 = (n : Int) * s - 1 := by ring
      rw [he, ediv_pred_mul _ _ hsp]
      omega

theorem nodup_tolist (r : Rng) (h : r.step ≠ 0) : (tolist r).Nodup := by
  unfold tolist
  refine List.Nodup.map ?_ (List.nodup_range _)
  intro i j hij
  have hij2 : r.start + (i : Int) * r.step = r.start + (j : Int) * r.step := hij
  have h1 : (i : Int) * r.step = (j : Int) * r.step := by omega
  have h2 : (i : Int) = (j : Int) := mul_right_cancel₀ h h1
  omega

/-- Embedding of `RangeIndex.equals` between two RangeIndexes: the source
returns `self._range == other._range`, and CPython compares two ranges as
equal iff they have the same length, and (if nonempty) the same start, and
(if longer than one element) the same step. -/
def equals (A B : Rng) : Bool :=
  if rlen A ≠ rlen B then false
  else if rlen A = 0 then true
  else if A.start ≠ B.start then false
  else if rlen A = 1 then true
  else decide (A.step = B.step)

theorem tolist_head (r : Rng) (hj : 0 < (tolist r).length) :
    (tolist r)[0] = r.start := by
  rw [getElem_tolist]
  push_cast
  ring

theorem tolist_second (r : Rng) (hj : 1 < (tolist r).length) :
    (tolist r)[1] = r.start + r.step := by
  rw [getElem_tolist]
  push_cast
  ring

theorem equals_iff_tolist_eq (A B : Rng) : equals A B = true ↔ tolist A = tolist B := by
  unfold equals
  split_ifs with h1 h2 h3 h4
  · simp only [false_iff]
    intro hc
    have hA := length_tolist A
    have hB := length_tolist B
    rw [hc] at hA
    omega
  · simp only [true_iff]
    have hA : (tolist A).length = 0 := by rw [length_tolist]; omega
    have hB : (tolist B).length = 0 := by rw [length_tolist]; omega
    rw [List.length_eq_zero.mp hA, List.length_eq_zero.mp hB]
  · simp only [false_iff]
    intro hc
    have h00 : (0 : Nat) < (tolist A).length := by rw [length_tolist]; omega
    have hg := List.getElem_of_eq hc h00
    rw [tolist_head A h00, tolist_head B (by rw [length_tolist]; omega)] at hg
    exact h3 hg
  · simp only [true_iff]
    apply List.ext_getElem
    · rw [length_tolist, length_tolist]; omega
    · intro i hiA hiB
      rw [length_tolist] at hiA
      have hi0 : i = 0 := by omega
      subst hi0
      have hhA := tolist_head A (by rw [length_tolist]; omega)
      have hhB := tolist_head B (by rw [length_tolist]; omega)
      rw [hhA, hhB]
      omega
  · rw [decide_eq_true_eq]
    constructor
    · intro hstep
      apply List.ext_getElem
      · rw [length_tolist, length_tolist]; omega
      · intro i hiA hiB
        rw [getElem_tolist, getElem_tolist, hstep]
        omega
    · intro hc
      have h11 : (1 : Nat) < (tolist A).length := by rw [length_tolist]; omega
      have hg := List.getElem_of_eq hc h11
      rw [tolist_second A h11, tolist_second B (by rw [length_tolist]; omega)] at hg
      have hstart : A.start = B.start := not_not.mp h3
      omega

theorem mem_tolist_pos' (r : Rng) (hs : 0 < r.step) (x : Int) :
    x ∈ tolist r ↔ r.start ≤ x ∧ x < r.stop ∧ r.step ∣ (x - r.start) := by
  obtain ⟨a, b, s⟩ := r
  exact mem_tolist_pos a b s hs x

theorem mem_tolist_neg' (r : Rng) (hs : r.step < 0) (x : Int) :
    x ∈ tolist r ↔ r.stop < x ∧ x ≤ r.start ∧ r.step ∣ (x - r.start) := by
  obtain ⟨a, b, s⟩ := r
  exact mem_tolist_neg a b s hs x

/-- Python `a % b` (floor modulus, `Int.fmod`) is zero exactly when `b` divides
`a`; this is the test used by `RangeIndex.intersection` and `RangeIndex._union`
for phase checks and by `RangeIndex.__floordiv__` for divisibility. -/
theorem fmod_eq_zero_iff_dvd (a b : Int) : a.fmod b = 0 ↔ b ∣ a := by
  constructor
  · intro h
    have hd := Int.fmod_add_fdiv a b
    exact ⟨a.fdiv b, by omega⟩
  · rintro ⟨c, rfl⟩
    have h : b * c = c * b := by ring
    rw [h]
    exact Int.mul_fmod_left c b

/-- Inner loop of `RangeIndex._extended_gcd`, with an explicit iteration budget.
Each pass replaces `(old_r, r)` by `(r, old_r - (old_r // r) * r)` (and updates
the Bezout coefficients in lockstep) until `r` becomes `0`; the remainder
strictly shrinks in absolute value each pass, so a budget of `|r| + 1` passes
always reaches the `r = 0` exit and the budget case is never taken. -/
def egcd_go : Nat → Int → Int → Int → Int → Int → Int → Int × Int × Int
  | 0, old_r, _, old_s, _, old_t, _ => (old_r, old_s, old_t)
  | fuel + 1, old_r, r, old_s, s, old_t, t =>
    if r = 0 then (old_r, old_s, old_t)
    else
      egcd_go fuel r (old_r - old_r.fdiv r * r) s (old_s - old_r.fdiv r * s)
        t (old_t - old_r.fdiv r * t)

/-- Embedding of `RangeIndex._extended_gcd(a, b)`: the iterative extended
Euclidean algorithm returning `(gcd, s, t)` with `a * s + b * t = gcd`. -/
def extended_gcd (a b : Int) : Int × Int × Int :=
  egcd_go (b.natAbs + 1) a b 1 0 0 1

theorem egcd_go_spec (a b : Int) (fuel : Nat) :
    ∀ old_r r old_s s old_t t : Int,
      0 < old_r → 0 ≤ r → r.natAbs < fuel →
      old_r = a * old_s + b * old_t → r = a * s + b * t →
      0 < (egcd_go fuel old_r r old_s s old_t t).1 ∧
      (egcd_go fuel old_r r old_s s old_t t).1 ∣ old_r ∧
      (egcd_go fuel old_r r old_s s old_t t).1 ∣ r ∧
      (egcd_go fuel old_r r old_s s old_t t).1 =
        a * (egcd_go fuel old_r r old_s s old_t t).2.1 +
          b * (egcd_go fuel old_r r old_s s old_t t).2.2 := by
  induction fuel with
  | zero =>
    intro old_r r old_s s old_t t h1 h2 h3 hb1 hb2
    omega
  | succ n ih =>
    intro old_r r old_s s old_t t h1 h2 h3 hb1 hb2
    by_cases hr : r = 0
    · subst hr
      simp only [egcd_go, if_pos rfl]
      exact ⟨h1, dvd_refl _, dvd_zero _, hb1⟩
    · simp only [egcd_go, if_neg hr]
      have hrpos : 0 < r := lt_of_le_of_ne h2 (Ne.symm hr)
      have hfm : old_r - old_r.fdiv r * r = old_r.fmod r := by
        have hd := Int.fmod_add_fdiv old_r r
        linear_combination -hd
      have hfm0 : 0 ≤ old_r.fmod r := by
        rw [Int.fmod_eq_emod _ (le_of_lt hrpos)]
        exact Int.emod_nonneg _ (ne_of_gt hrpos)
      have hfmlt : old_r.fmod r < r := by
        rw [Int.fmod_eq_emod _ (le_of_lt hrpos)]
        exact Int.emod_lt_of_pos _ hrpos
      have hfuel : (old_r - old_r.fdiv r * r).natAbs < n := by omega
      have hbz : old_r - old_r.fdiv r * r =
          a * (old_s - old_r.fdiv r * s) + b * (old_t - old_r.fdiv r * t) := by
        linear_combination hb1 - old_r.fdiv r * hb2
      obtain ⟨hp, hdo, hdr, hbez⟩ :=
        ih r (old_r - old_r.fdiv r * r) s (old_s - old_r.fdiv r * s)
          t (old_t - old_r.fdiv r * t) hrpos (by omega) hfuel hb2 hbz
      refine ⟨hp, ?_, hdo, hbez⟩
      have hdsum := dvd_add (Dvd.dvd.mul_left hdo (old_r.fdiv r)) hdr
      have heq : old_r.fdiv r * r + (old_r - old_r.fdiv r * r) = old_r := by ring
      rw [heq] at hdsum
      exact hdsum

theorem extended_gcd_spec (a b : Int) (ha : 0 < a) (hb : 0 < b) :
    0 < (extended_gcd a b).1 ∧ (extended_gcd a b).1 ∣ a ∧
      (extended_gcd a b).1 ∣ b ∧
      (extended_gcd a b).1 =
        a * (extended_gcd a b).2.1 + b * (extended_gcd a b).2.2 := by
  have h := egcd_go_spec a b (b.natAbs + 1) a b 1 0 0 1 ha (le_of_lt hb)
    (by omega) (by ring) (by ring)
  exact h

theorem extended_gcd_eq_gcd (a b : Int) (ha : 0 < a) (hb : 0 < b) :
    (extended_gcd a b).1 = (Int.gcd a b : Int) := by
  obtain ⟨hpos, hda, hdb, hbez⟩ := extended_gcd_spec a b ha hb
  refine Int.dvd_antisymm (le_of_lt hpos) (Int.natCast_nonneg _) ?_ ?_
  · exact Int.dvd_gcd hda hdb
  · rw [hbez]
    exact dvd_add ((Int.gcd_dvd_left).mul_right _) ((Int.gcd_dvd_right).mul_right _)

/-- Embedding of `RangeIndex._simple_new`, restricted to the call shapes that
occur in the source file: `_simple_new(None)` builds the canonical empty range
`range(0, 0, 1)`, and integer arguments build `range(start, stop or 0, step or 1)`.
Note the Python `or` defaults: a `stop` of `None` becomes `0` (a `stop` of `0`
already equals `0`), and a falsy `step` (`None` or `0`) is silently replaced
by `1` rather than rejected. -/
def simple_new (start stop step : Option Int) : Rng :=
  match start with
  | none => ⟨0, 0, 1⟩
  | some a =>
    ⟨a, (match stop with | none => 0 | some v => v),
      (match step with | none => 1 | some v => if v = 0 then 1 else v)⟩

theorem simple_new_of_ne (a b s : Int) (hs : s ≠ 0) :
    simple_new (some a) (some b) (some s) = ⟨a, b, s⟩ := by
  simp [simple_new, hs]

theorem simple_new_none : simple_new none none none = ⟨0, 0, 1⟩ := rfl

theorem tolist_empty : tolist ⟨0, 0, 1⟩ = [] := rfl

/-- Embedding of `RangeIndex._min_fitting_element(lower_limit)`: the smallest
element of the unbounded progression `start + k * |step|` that is at least
`lower_limit`, computed as `start + abs(step) * (-(-(lower_limit - start) // abs(step)))`
with Python floor division. -/
def min_fitting_element (r : Rng) (lower_limit : Int) : Int :=
  r.start + |r.step| * (-((-(lower_limit - r.start)).fdiv |r.step|))

theorem min_fitting_element_spec (r : Rng) (lo : Int) (hL : 0 < r.step) :
    r.step ∣ (min_fitting_element r lo - r.start) ∧
      lo ≤ min_fitting_element r lo ∧
      min_fitting_element r lo < lo + r.step := by
  have habs : |r.step| = r.step := abs_of_pos hL
  unfold min_fitting_element
  rw [habs]
  have hd := Int.fmod_add_fdiv (-(lo - r.start)) r.step
  have hm0 : 0 ≤ (-(lo - r.start)).fmod r.step := by
    rw [Int.fmod_eq_emod _ (le_of_lt hL)]
    exact Int.emod_nonneg _ (ne_of_gt hL)
  have hmlt : (-(lo - r.start)).fmod r.step < r.step := by
    rw [Int.fmod_eq_emod _ (le_of_lt hL)]
    exact Int.emod_lt_of_pos _ hL
  refine ⟨⟨-((-(lo - r.start)).fdiv r.step), by ring⟩, ?_, ?_⟩
  · have he : r.step * (-(lo - r.start)).fdiv r.step =
        -(lo - r.start) - (-(lo - r.start)).fmod r.step := by omega
    have he2 : r.step * (-((-(lo - r.start)).fdiv r.step)) =
        (lo - r.start) + (-(lo - r.start)).fmod r.step := by
      linear_combination -he
    omega
  · have he : r.step * (-(lo - r.start)).fdiv r.step =
        -(lo - r.start) - (-(lo - r.start)).fmod r.step := by omega
    have he2 : r.step * (-((-(lo - r.start)).fdiv r.step)) =
        (lo - r.start) + (-(lo - r.start)).fmod r.step := by
      linear_combination -he
    omega

/-- Tail of `RangeIndex.intersection` once a common element is known to exist:
`new_index = _simple_new(tmp_start, int_high, new_step)`, clip with
`new_start = new_index._min_fitting_element(int_low)`,
`new_index = _simple_new(new_start, new_index.stop, new_index.step)`, and
finally reverse if `(self.step < 0 and other.step < 0) is not (new_index.step < 0)`
(the reversal `new_index[::-1]` is the slice embedded by `rev`). -/
def intersection_build (int_low int_high tmp_start new_step : Int)
    (both_dec : Bool) : Rng :=
  let ni := simple_new (some tmp_start) (some int_high) (some new_step)
  let ni2 := simple_new (some (min_fitting_element ni int_low)) (some ni.stop)
    (some ni.step)
  if both_dec ≠ decide (ni2.step < 0) then rev ni2 else ni2

/-- Body of `RangeIndex.intersection` for two nonempty operands that were
normalized to increasing orientation (`first`, `second` in the source):
interval-overlap test, gcd phase test, and the Diophantine construction.
`both_dec` records whether both original operands were decreasing. -/
def intersection_pos (F S : Rng) (both_dec : Bool) : Rng :=
  if min F.stop S.stop ≤ max F.start S.start then simple_new none none none
  else if (F.start - S.start).fmod (extended_gcd F.step S.step).1 ≠ 0 then
    simple_new none none none
  else
    intersection_build (max F.start S.start) (min F.stop S.stop)
      (F.start + ((S.start - F.start) * F.step).fdiv (extended_gcd F.step S.step).1 *
        (extended_gcd F.step S.step).2.1)
      ((F.step * S.step).fdiv (extended_gcd F.step S.step).1)
      both_dec

/-- Embedding of `RangeIndex.intersection(other, sort=False)` for a RangeIndex
operand: the `self.equals(other)` fast path returns `self` (the label
reconciliation of `_get_reconciled_name_object` is out of scope), empty
operands return `_simple_new(None)`, and otherwise both operands are
normalized to increasing orientation (`self._range[::-1]` when the step is
negative) and handed to the Diophantine core.  The final `sort_values` call
happens only for `sort=None`, which this claim does not exercise. -/
def intersection (A B : Rng) : Rng :=
  if equals A B then A
  else if rlen A = 0 ∨ rlen B = 0 then simple_new none none none
  else
    intersection_pos (if A.step < 0 then rev A else A)
      (if B.step < 0 then rev B else B)
      (decide (A.step < 0 ∧ B.step < 0))

theorem mem_intersection_build (lo hi tmp L : Int) (bd : Bool) (hL : 0 < L)
    (x : Int) :
    x ∈ tolist (intersection_build lo hi tmp L bd) ↔
      (min_fitting_element ⟨tmp, hi, L⟩ lo ≤ x ∧ x < hi ∧
        L ∣ (x - min_fitting_element ⟨tmp, hi, L⟩ lo)) := by
  have hne : L ≠ 0 := ne_of_gt hL
  simp only [intersection_build, simple_new_of_ne _ _ _ hne]
  by_cases hbd : bd ≠ decide ((⟨min_fitting_element ⟨tmp, hi, L⟩ lo, hi, L⟩ : Rng).step < 0)
  · rw [if_pos hbd, mem_tolist_rev _ (by exact hne) x,
      mem_tolist_pos (min_fitting_element ⟨tmp, hi, L⟩ lo) hi L hL x]
  · rw [if_neg hbd,
      mem_tolist_pos (min_fitting_element ⟨tmp, hi, L⟩ lo) hi L hL x]

theorem intersection_pos_mem (F S : Rng) (bd : Bool) (hF : 0 < F.step)
    (hS : 0 < S.step) (x : Int) :
    x ∈ tolist (intersection_pos F S bd) ↔ (x ∈ tolist F ∧ x ∈ tolist S) := by
  unfold intersection_pos
  by_cases h1 : min F.stop S.stop ≤ max F.start S.start
  · rw [if_pos h1, simple_new_none, tolist_empty]
    simp only [List.not_mem_nil, false_iff]
    rintro ⟨hxF, hxS⟩
    rw [mem_tolist_pos' F hF x] at hxF
    rw [mem_tolist_pos' S hS x] at hxS
    omega
  · rw [if_neg h1]
    obtain ⟨hgpos, hga, hgb, hbez⟩ := extended_gcd_spec F.step S.step hF hS
    by_cases h2 : (F.start - S.start).fmod (extended_gcd F.step S.step).1 ≠ 0
    · rw [if_pos h2, simple_new_none, tolist_empty]
      simp only [List.not_mem_nil, false_iff]
      rintro ⟨hxF, hxS⟩
      rw [mem_tolist_pos' F hF x] at hxF
      rw [mem_tolist_pos' S hS x] at hxS
      apply h2
      rw [fmod_eq_zero_iff_dvd]
      have d1 : (extended_gcd F.step S.step).1 ∣ (x - F.start) :=
        dvd_trans hga hxF.2.2
      have d2 : (extended_gcd F.step S.step).1 ∣ (x - S.start) :=
        dvd_trans hgb hxS.2.2
      have he : F.start - S.start = (x - S.start) - (x - F.start) := by ring
      rw [he]
      exact dvd_sub d2 d1
    · rw [if_neg h2]
      set g : Int := (extended_gcd F.step S.step).1 with hgdef
      set sig : Int := (extended_gcd F.step S.step).2.1 with hsigdef
      set tau : Int := (extended_gcd F.step S.step).2.2 with htaudef
      set tmp : Int :=
        F.start + ((S.start - F.start) * F.step).fdiv g * sig with htmpdef
      set L : Int := (F.step * S.step).fdiv g with hLdef
      set lo : Int := max F.start S.start with hlodef
      set hi : Int := min F.stop S.stop with hhidef
      have h2e : g ∣ (F.start - S.start) := (fmod_eq_zero_iff_dvd _ _).mp (not_not.mp h2)
      have h2n : g ∣ (S.start - F.start) := by
        have he : S.start - F.start = -(F.start - S.start) := by ring
        rw [he]
        exact (dvd_neg).mpr h2e
      obtain ⟨d, hd⟩ := h2n
      have htmp : tmp = F.start + d * F.step * sig := by
        rw [htmpdef, hd]
        have he : g * d * F.step = g * (d * F.step) := by ring
        rw [he, Int.mul_fdiv_cancel_left _ (ne_of_gt hgpos)]
      have hc1 : F.step ∣ (tmp - F.start) := ⟨d * sig, by rw [htmp]; ring⟩
      have hc2 : S.step ∣ (tmp - S.start) := by
        refine ⟨-(d * tau), ?_⟩
        rw [htmp]
        linear_combination (-d) * hbez - hd
      obtain ⟨e2, he2⟩ := hgb
      have hL1 : L = F.step * e2 := by
        rw [hLdef, he2]
        have he : F.step * (g * e2) = g * (F.step * e2) := by ring
        rw [he, Int.mul_fdiv_cancel_left _ (ne_of_gt hgpos)]
      obtain ⟨e1, he1⟩ := hga
      have hL2 : L = e1 * S.step := by
        rw [hLdef, he1]
        have he : g * e1 * S.step = g * (e1 * S.step) := by ring
        rw [he, Int.mul_fdiv_cancel_left _ (ne_of_gt hgpos)]
      have he2pos : 0 < e2 := by
        by_contra hc
        push_neg at hc
        have hmn : g * e2 ≤ 0 :=
          mul_nonpos_of_nonneg_of_nonpos (le_of_lt hgpos) hc
        omega
      have hLpos : 0 < L := by
        rw [hL1]
        exact mul_pos hF he2pos
      have hs1L : F.step ∣ L := ⟨e2, hL1⟩
      have hs2L : S.step ∣ L := ⟨e1, by rw [hL2]; ring⟩
      have hgcd : (Int.gcd F.step S.step : Int) = g := by
        rw [hgdef]
        exact (extended_gcd_eq_gcd F.step S.step hF hS).symm
      have hlcm : (Int.lcm F.step S.step : Int) = L := by
        have hml := Int.gcd_mul_lcm F.step S.step
        have hcast : (Int.gcd F.step S.step : Int) * (Int.lcm F.step S.step : Int) =
            ((F.step * S.step).natAbs : Int) := by
          exact_mod_cast congrArg (fun n : Nat => (n : Int)) hml
        have habs : ((F.step * S.step).natAbs : Int) = F.step * S.step :=
          Int.natAbs_of_nonneg (le_of_lt (mul_pos hF hS))
        rw [hgcd, habs] at hcast
        have hprod : F.step * S.step = g * L := by
          rw [hL1, he2]
          ring
        rw [hprod] at hcast
        exact mul_left_cancel₀ (ne_of_gt hgpos) hcast
      have hcong : ∀ y : Int,
          (F.step ∣ (y - F.start) ∧ S.step ∣ (y - S.start)) ↔ L ∣ (y - tmp) := by
        intro y
        constructor
        · rintro ⟨hy1, hy2⟩
          have hd1 : F.step ∣ (y - tmp) := by
            have he : y - tmp = (y - F.start) - (tmp - F.start) := by ring
            rw [he]
            exact dvd_sub hy1 hc1
          have hd2 : S.step ∣ (y - tmp) := by
            have he : y - tmp = (y - S.start) - (tmp - S.start) := by ring
            rw [he]
            exact dvd_sub hy2 hc2
          rw [← hlcm]
          exact Int.lcm_dvd hd1 hd2
        · intro hy
          constructor
          · have hstep := dvd_trans hs1L hy
            have he : y - F.start = (y - tmp) + (tmp - F.start) := by ring
            rw [he]
            exact dvd_add hstep hc1
          · have hstep := dvd_trans hs2L hy
            have he : y - S.start = (y - tmp) + (tmp - S.start) := by ring
            rw [he]
            exact dvd_add hstep hc2
      obtain ⟨hmf1, hmf2, hmf3⟩ := min_fitting_element_spec ⟨tmp, hi, L⟩ lo hLpos
      have hmf1' : L ∣ (min_fitting_element ⟨tmp, hi, L⟩ lo - tmp) := hmf1
      have hmf2' : lo ≤ min_fitting_element ⟨tmp, hi, L⟩ lo := hmf2
      have hmf3' : min_fitting_element ⟨tmp, hi, L⟩ lo < lo + L := hmf3
      set ns : Int := min_fitting_element ⟨tmp, hi, L⟩ lo with hnsdef
      rw [mem_intersection_build lo hi tmp L bd hLpos x,
        mem_tolist_pos' F hF x, mem_tolist_pos' S hS x]
      constructor
      · rintro ⟨hx1, hx2, hx3⟩
        have hxt : L ∣ (x - tmp) := by
          have he : x - tmp = (x - ns) + (ns - tmp) := by ring
          rw [he]
          exact dvd_add hx3 hmf1'
        have hcg := (hcong x).mpr hxt
        refine ⟨⟨by omega, by omega, hcg.1⟩, ⟨by omega, by omega, hcg.2⟩⟩
      · rintro ⟨⟨hxa1, hxb1, hxd1⟩, ⟨hxa2, hxb2, hxd2⟩⟩
        have hlox : lo ≤ x := by omega
        have hxhi : x < hi := by omega
        have hxt : L ∣ (x - tmp) := (hcong x).mp ⟨hxd1, hxd2⟩
        have hxns : L ∣ (x - ns) := by
          have he : x - ns = (x - tmp) - (ns - tmp) := by ring
          rw [he]
          exact dvd_sub hxt hmf1'
        have hnsx : ns ≤ x := by
          by_contra hcc
          push_neg at hcc
          have hdpos : 0 < ns - x := by omega
          have hdv : L ∣ (ns - x) := by
            have he : ns - x = -(x - ns) := by ring
            rw [he]
            exact (dvd_neg).mpr hxns
          have hle := Int.le_of_dvd hdpos hdv
          omega
        exact ⟨hnsx, hxhi, hxns⟩

theorem intersection_mem (A B : Rng) (hA : A.step ≠ 0) (hB : B.step ≠ 0)
    (x : Int) :
    x ∈ tolist (intersection A B) ↔ (x ∈ tolist A ∧ x ∈ tolist B) := by
  unfold intersection
  by_cases heq : equals A B
  · rw [if_pos heq]
    have ht := (equals_iff_tolist_eq A B).mp heq
    rw [ht, and_self]
  · rw [if_neg heq]
    by_cases hz : rlen A = 0 ∨ rlen B = 0
    · rw [if_pos hz, simple_new_none, tolist_empty]
      simp only [List.not_mem_nil, false_iff]
      rintro ⟨hxA, hxB⟩
      rcases hz with hz | hz
      · have hnil : tolist A = [] := by
          apply List.length_eq_zero.mp
          rw [length_tolist]
          omega
        rw [hnil] at hxA
        exact List.not_mem_nil x hxA
      · have hnil : tolist B = [] := by
          apply List.length_eq_zero.mp
          rw [length_tolist]
          omega
        rw [hnil] at hxB
        exact List.not_mem_nil x hxB
    · rw [if_neg hz]
      have hFpos : 0 < (if A.step < 0 then rev A else A).step := by
        by_cases h : A.step < 0
        · rw [if_pos h]
          show 0 < -A.step
          omega
        · rw [if_neg h]
          omega
      have hSpos : 0 < (if B.step < 0 then rev B else B).step := by
        by_cases h : B.step < 0
        · rw [if_pos h]
          show 0 < -B.step
          omega
        · rw [if_neg h]
          omega
      rw [intersection_pos_mem _ _ _ hFpos hSpos x]
      have hFmem : x ∈ tolist (if A.step < 0 then rev A else A) ↔ x ∈ tolist A := by
        by_cases h : A.step < 0
        · rw [if_pos h, mem_tolist_rev A hA]
        · rw [if_neg h]
      have hSmem : x ∈ tolist (if B.step < 0 then rev B else B) ↔ x ∈ tolist B := by
        by_cases h : B.step < 0
        · rw [if_pos h, mem_tolist_rev B hB]
        · rw [if_neg h]
      rw [hFmem, hSmem]

/-- Insertion of an integer into a sorted list (helper for the spec-modelled
dense fallback of union). -/
def ins_sorted (x : Int) : List Int → List Int
  | [] => [x]
  | y :: ys => if x ≤ y then x :: y :: ys else y :: ins_sorted x ys

/-- Insertion sort over integers (helper for the spec-modelled dense fallback
of union). -/
def sort_ints : List Int → List Int
  | [] => []
  | x :: xs => ins_sorted x (sort_ints xs)

/-- Modelled from the spec: the dense union fallback
`self._int64index._union(other, sort=sort)` lives in the Int64Index base class,
which is not part of this file; per spec section 4.4, with an ascending sort
hint it materializes both progressions and returns the sorted deduplicated
union. -/
def dense_union_sorted (A B : Rng) : List Int :=
  sort_ints ((tolist A ++ tolist B).dedup)

/-- Embedding of `RangeIndex._union(other, sort=None)` for a RangeIndex operand.

The fast exits (`not len(other) or self.equals(other) or not len(self)`)
delegate to the base-class `_union`, which is not part of this file; they are
modelled from the spec (section 4.4: return the non-trivial side, or either
side when set-equal).  The main body is a faithful transcription of the source:
both sides are normalized to ascending form (`start_s, step_s, end_s` and the
`_o` triple), single-element operands have their meaningless step replaced
(`abs(self.start - other.start)` when both have length 1, the other side's
step when only one does), and then the equal-step merge, the half-step
interleave merge (note the source compares against the Python float
`step_s / 2`, which is exact here because `step_s % 2 == 0` was just checked,
so integer division models it exactly), and the two multiple-step merges are
tried in order.  `self.__class__(start_r, ..., step)` is the validating
constructor; on every reachable branch the step passed is nonzero, so it is
the plain triple.  Any remaining case falls back to the dense union. -/
def union (A B : Rng) : Sum Rng (List Int) :=
  if rlen B = 0 then Sum.inl A
  else if equals A B then Sum.inl A
  else if rlen A = 0 then Sum.inl B
  else
    let ss0 := if A.step < 0 then A.start + A.step * ((rlen A : Int) - 1) else A.start
    let es0 := if A.step < 0 then A.start else A.start + A.step * ((rlen A : Int) - 1)
    let ps0 := if A.step < 0 then -A.step else A.step
    let so0 := if B.step < 0 then B.start + B.step * ((rlen B : Int) - 1) else B.start
    let eo0 := if B.step < 0 then B.start else B.start + B.step * ((rlen B : Int) - 1)
    let po0 := if B.step < 0 then -B.step else B.step
    let ps1 := if rlen A = 1 ∧ rlen B = 1 then |A.start - B.start|
      else if rlen A = 1 then po0 else ps0
    let po1 := if rlen A = 1 ∧ rlen B = 1 then |A.start - B.start|
      else if rlen A = 1 then po0 else if rlen B = 1 then ps0 else po0
    let start_r := min ss0 so0
    let end_r := max es0 eo0
    if po1 = ps1 then
      if (ss0 - so0).fmod ps1 = 0 ∧ ss0 - eo0 ≤ ps1 ∧ so0 - es0 ≤ ps1 then
        Sum.inl ⟨start_r, end_r + ps1, ps1⟩
      else if ps1.fmod 2 = 0 ∧ |ss0 - so0| ≤ ps1 / 2 ∧ |es0 - eo0| ≤ ps1 / 2 then
        Sum.inl ⟨start_r, end_r + ps1 / 2, ps1 / 2⟩
      else Sum.inr (dense_union_sorted A B)
    else if po1.fmod ps1 = 0 then
      if (so0 - ss0).fmod ps1 = 0 ∧ so0 + ps1 ≥ ss0 ∧ eo0 - ps1 ≤ es0 then
        Sum.inl ⟨start_r, end_r + ps1, ps1⟩
      else Sum.inr (dense_union_sorted A B)
    else if ps1.fmod po1 = 0 then
      if (ss0 - so0).fmod po1 = 0 ∧ ss0 + po1 ≥ so0 ∧ es0 - po1 ≤ eo0 then
        Sum.inl ⟨start_r, end_r + po1, po1⟩
      else Sum.inr (dense_union_sorted A B)
    else Sum.inr (dense_union_sorted A B)

/-- A Python number as handled by the arithmetic methods: either an `int` or a
`float`.  Python floats are embedded as exact rationals — every value reached
by the claims is produced by `+ - * /` on integers, where exact rational
arithmetic agrees with the claims' statements. -/
inductive PyNum where
  | pint (n : Int)
  | pfloat (q : ℚ)
deriving DecidableEq, Repr

/-- Numeric value of a `PyNum`. -/
def PyNum.toQ : PyNum → ℚ
  | .pint n => (n : ℚ)
  | .pfloat q => q

/-- Embedding of `pandas._libs.lib.is_integer` as used by
`_evaluate_numeric_binop`: true for Python ints, false for floats (even for
float values that happen to be integral, such as `2.0`). -/
def PyNum.is_integer : PyNum → Bool
  | .pint _ => true
  | .pfloat _ => false

/-- Python `+` on numbers: int when both operands are ints, float otherwise. -/
def pyAdd : PyNum → PyNum → PyNum
  | .pint a, .pint b => .pint (a + b)
  | a, b => .pfloat (a.toQ + b.toQ)

/-- Python `-` on numbers. -/
def pySub : PyNum → PyNum → PyNum
  | .pint a, .pint b => .pint (a - b)
  | a, b => .pfloat (a.toQ - b.toQ)

/-- Python `*` on numbers. -/
def pyMul : PyNum → PyNum → PyNum
  | .pint a, .pint b => .pint (a * b)
  | a, b => .pfloat (a.toQ * b.toQ)

/-- Python `/` (true division) on numbers: the result is always a float, also
for two int operands. -/
def pyTruediv (a b : PyNum) : PyNum := .pfloat (a.toQ / b.toQ)

/-- Embedding of `pandas.core.dtypes.common.ensure_python_int` as called by
`RangeIndex.__new__`: an int passes through; a float is accepted only when
`int(value) == value`, i.e. when it is integral; otherwise a `TypeError` is
raised, modelled as `none`. -/
def ensure_python_int : PyNum → Option Int
  | .pint n => some n
  | .pfloat q => if q.den = 1 then some q.num else none

/-- Result of `_evaluate_numeric_binop`: a `RangeIndex` (closed form), a
`Float64Index` carrying the values of a constructed range
(`result.astype('float64')`), or the dense elementwise fallback
`op(self._int64index, other)`. -/
inductive BinopResult where
  | rangeRes (r : Rng)
  | floatRes (r : Rng)
  | denseRes (l : List PyNum)
deriving DecidableEq, Repr

/-- The element sequence denoted by a binary-op result, as exact rationals. -/
def BinopResult.elems : BinopResult → List ℚ
  | .rangeRes r => (tolist r).map (fun (z : Int) => (z : ℚ))
  | .floatRes r => (tolist r).map (fun (z : Int) => (z : ℚ))
  | .denseRes l => l.map PyNum.toQ

/-- Embedding of the closure `_evaluate_numeric_binop` produced by
`RangeIndex._add_numeric_methods_binary._make_evaluate_binop(op, step)` for a
scalar numeric operand.  `stepOp` is the optional step override (`none` for
`+`/`-`, `some pyMul` for `*`, `some pyTruediv` for `/`).  When a step
override is present and the resulting step is not an int or is zero, the
source raises `ValueError`, caught below as the dense elementwise fallback
`op(self._int64index, other)` — modelled here (and on every other caught
exception path) as `op` mapped over the materialized elements.  Otherwise
`RangeIndex(rstart, rstop, rstep)` is attempted: non-integral floats make
`ensure_python_int` raise `TypeError` (fallback), a zero step raises
`ValueError` (fallback), and a successfully built range is downgraded to a
dense-valued `Float64Index` when any of the three descriptors was a float. -/
def evaluate_numeric_binop (r : Rng) (other : PyNum)
    (op : PyNum → PyNum → PyNum) (stepOp : Option (PyNum → PyNum → PyNum)) :
    BinopResult :=
  let fallback : BinopResult :=
    .denseRes ((tolist r).map (fun z => op (.pint z) other))
  let rstep : PyNum :=
    match stepOp with
    | some f => f (.pint r.step) other
    | none => .pint r.step
  if stepOp.isSome ∧ (rstep.is_integer = false ∨ rstep.toQ = 0) then fallback
  else
    match ensure_python_int (op (.pint r.start) other),
        ensure_python_int (op (.pint r.stop) other),
        ensure_python_int rstep with
    | some a, some b, some c =>
      if c = 0 then fallback
      else if (op (.pint r.start) other).is_integer ∧
          (op (.pint r.stop) other).is_integer ∧ rstep.is_integer then
        .rangeRes ⟨a, b, c⟩
      else .floatRes ⟨a, b, c⟩
    | _, _, _ => fallback

/-- The three operators of the arithmetic-homomorphism claim, with the exact
wiring the source installs: `__add__`/`__sub__` have no step override,
`__mul__` overrides the step with `operator.mul`. -/
inductive ArithOp where
  | add
  | sub
  | mul
deriving DecidableEq, Repr

/-- The Python operator passed as `op`. -/
def ArithOp.pyOp : ArithOp → PyNum → PyNum → PyNum
  | .add => pyAdd
  | .sub => pySub
  | .mul => pyMul

/-- The step override passed as `step` (`False`, i.e. `none`, for add and sub). -/
def ArithOp.stepOp : ArithOp → Option (PyNum → PyNum → PyNum)
  | .add => none
  | .sub => none
  | .mul => some pyMul

/-- The same operator on plain integers, for stating the claim. -/
def ArithOp.onInt : ArithOp → Int → Int → Int
  | .add, x, k => x + k
  | .sub, x, k => x - k
  | .mul, x, k => x * k

theorem tolist_add_const (a b s k : Int) :
    tolist ⟨a + k, b + k, s⟩ = (tolist ⟨a, b, s⟩).map (fun z => z + k) := by
  unfold tolist
  rw [rlen_translate a b s k, List.map_map]
  apply List.map_congr_left
  intro i _
  simp only [Function.comp_apply]
  ring

theorem tolist_sub_const (a b s k : Int) :
    tolist ⟨a - k, b - k, s⟩ = (tolist ⟨a, b, s⟩).map (fun z => z - k) := by
  have h1 : a - k = a + (-k) := by ring
  have h2 : b - k = b + (-k) := by ring
  rw [h1, h2, tolist_add_const a b s (-k)]
  apply List.map_congr_left
  intro z _
  ring

theorem tolist_mul_const (a b s k : Int) (hs : s ≠ 0) (hk : k ≠ 0) :
    tolist ⟨a * k, b * k, s * k⟩ = (tolist ⟨a, b, s⟩).map (fun z => z * k) := by
  unfold tolist
  rw [rlen_smul a b s k hs hk, List.map_map]
  apply List.map_congr_left
  intro i _
  simp only [Function.comp_apply]
  ring

theorem evaluate_numeric_binop_arith (r : Rng) (k : Int) (o : ArithOp)
    (h : r.step ≠ 0) :
    (evaluate_numeric_binop r (.pint k) o.pyOp o.stepOp).elems =
      (tolist r).map (fun z => ((o.onInt z k : Int) : ℚ)) := by
  obtain ⟨a, b, s⟩ := r
  have hs : (⟨a, b, s⟩ : Rng).step = s := rfl
  rw [hs] at h
  cases o with
  | add =>
    have hres : evaluate_numeric_binop ⟨a, b, s⟩ (.pint k) ArithOp.add.pyOp
        ArithOp.add.stepOp = .rangeRes ⟨a + k, b + k, s⟩ := by
      simp [evaluate_numeric_binop, ArithOp.pyOp, ArithOp.stepOp, pyAdd,
        ensure_python_int, PyNum.is_integer, h]
    rw [hres]
    simp only [BinopResult.elems, ArithOp.onInt]
    rw [tolist_add_const a b s k, List.map_map]
    apply List.map_congr_left
    intro z _
    simp only [Function.comp_apply]
  | sub =>
    have hres : evaluate_numeric_binop ⟨a, b, s⟩ (.pint k) ArithOp.sub.pyOp
        ArithOp.sub.stepOp = .rangeRes ⟨a - k, b - k, s⟩ := by
      simp [evaluate_numeric_binop, ArithOp.pyOp, ArithOp.stepOp, pySub,
        ensure_python_int, PyNum.is_integer, h]
    rw [hres]
    simp only [BinopResult.elems, ArithOp.onInt]
    rw [tolist_sub_const a b s k, List.map_map]
    apply List.map_congr_left
    intro z _
    simp only [Function.comp_apply]
  | mul =>
    by_cases hk : k = 0
    · subst hk
      have hres : evaluate_numeric_binop ⟨a, b, s⟩ (.pint 0) ArithOp.mul.pyOp
          ArithOp.mul.stepOp =
          .denseRes ((tolist ⟨a, b, s⟩).map (fun z => pyMul (.pint z) (.pint 0))) := by
        simp [evaluate_numeric_binop, ArithOp.pyOp, ArithOp.stepOp, pyMul,
          PyNum.is_integer, PyNum.toQ]
      rw [hres]
      simp only [BinopResult.elems, ArithOp.onInt, List.map_map]
      apply List.map_congr_left
      intro z _
      simp only [Function.comp_apply, pyMul, PyNum.toQ]
    · have hsk : s * k ≠ 0 := mul_ne_zero h hk
      have hres : evaluate_numeric_binop ⟨a, b, s⟩ (.pint k) ArithOp.mul.pyOp
          ArithOp.mul.stepOp = .rangeRes ⟨a * k, b * k, s * k⟩ := by
        simp [evaluate_numeric_binop, ArithOp.pyOp, ArithOp.stepOp, pyMul,
          ensure_python_int, PyNum.is_integer, PyNum.toQ, hsk, h, hk]
      rw [hres]
      simp only [BinopResult.elems, ArithOp.onInt]
      rw [tolist_mul_const a b s k h hk, List.map_map]
      apply List.map_congr_left
      intro z _
      simp only [Function.comp_apply]

theorem evaluate_numeric_binop_truediv (r : Rng) (k : Int) (h : r.step ≠ 0)
    (hk : k ≠ 0) :
    evaluate_numeric_binop r (.pint k) pyTruediv (some pyTruediv) =
      .denseRes ((tolist r).map
        (fun (z : Int) => PyNum.pfloat ((z : ℚ) / (k : ℚ)))) := by
  unfold evaluate_numeric_binop
  rw [if_pos ⟨rfl, Or.inl rfl⟩]
  rfl

/-- Embedding of `RangeIndex.__floordiv__` for an integer scalar (the
Series/DataFrame deferral and the non-integer-or-zero guard reject everything
else): if the range is empty or the scalar evenly divides both start and step,
a closed-form range is produced through `_simple_new`; a length-one range also
stays closed-form with `start // other` as its single element; every other
case defers to `self._int64index // other`, the dense elementwise path,
modelled as `none`. -/
def floordiv (r : Rng) (k : Int) : Option Rng :=
  if k ≠ 0 then
    if rlen r = 0 ∨ (r.start.fmod k = 0 ∧ r.step.fmod k = 0) then
      some (simple_new (some (r.start.fdiv k))
        (some (r.start.fdiv k + (rlen r : Int) * (r.step.fdiv k)))
        (some (r.step.fdiv k)))
    else if rlen r = 1 then
      some (simple_new (some (r.start.fdiv k)) (some (r.start.fdiv k + 1)) (some 1))
    else none
  else none

inductive ConstructErr where
  | invalidConstruction
  | invalidStep
deriving DecidableEq, Repr

/-- Embedding of `RangeIndex.__new__(start, stop, step)` (the spec's
`from_bounds`): raises `TypeError` ("RangeIndex(...) must be called with
integers", the spec's `InvalidConstruction`) when start, stop and step are all
absent; otherwise start defaults to 0, a missing stop turns the single given
value into the stop (`start, stop = 0, start`), step defaults to 1, and a
resolved step of 0 raises `ValueError` ("Step must not be zero", the spec's
`InvalidStep`).  The surviving triple goes through `_simple_new` unchanged
(its step is nonzero). -/
def range_index_new (start stop step : Option Int) : Except ConstructErr Rng :=
  if start = none ∧ stop = none ∧ step = none then .error .invalidConstruction
  else
    let start0 := start.getD 0
    let start1 := if stop = none then 0 else start0
    let stop1 := match stop with | none => start0 | some v => v
    let step1 := step.getD 1
    if step1 = 0 then .error .invalidStep
    else .ok ⟨start1, stop1, step1⟩

/-- Embedding of `RangeIndex.__getitem__` for an integer scalar key:
`self._range[key]` with CPython range-subscript semantics — a negative index
counts from the end, and an index outside `[-len, len)` raises `IndexError`
(re-raised by the source with its own message), modelled as `none`. -/
def getitem_int (r : Rng) (i : Int) : Option Int :=
  if 0 ≤ i ∧ i < (rlen r : Int) then some (r.start + i * r.step)
  else if i < 0 ∧ 0 ≤ i + (rlen r : Int) then
    some (r.start + (i + (rlen r : Int)) * r.step)
  else none

/-- Embedding of `RangeIndex.any`: `any(self._range)`, Python's builtin `any`
over the materialized elements — true iff some element is nonzero (Python
truthiness of an int). -/
def range_any (r : Rng) : Bool := (tolist r).any (fun z => decide (z ≠ 0))

/-- Embedding of `RangeIndex.is_unique`: the source returns the constant
`True`. -/
def is_unique (_ : Rng) : Bool := true

/-- Embedding of `RangeIndex.has_duplicates`: the source returns the constant
`False`. -/
def has_duplicates (_ : Rng) : Bool := false

theorem mem_tolist' (r : Rng) (x : Int) :
    x ∈ tolist r ↔ ∃ i : Nat, i < rlen r ∧ x = r.start + (i : Int) * r.step := by
  obtain ⟨a, b, s⟩ := r
  exact mem_tolist a b s x

theorem tolist_one (r : Rng) (h : rlen r = 1) : tolist r = [r.start] := by
  unfold tolist
  rw [h]
  have hrange : List.range 1 = [0] := rfl
  rw [hrange]
  simp

theorem rlen_start_eq_stop (a st : Int) : rlen ⟨a, a, st⟩ = 0 := by
  rw [rlen_mk]
  split_ifs <;> omega

theorem simple_new_some (a b v : Int) :
    simple_new (some a) (some b) (some v) = ⟨a, b, if v = 0 then 1 else v⟩ := rfl

theorem simple_new_step_ne (o1 o2 o3 : Option Int) :
    (simple_new o1 o2 o3).step ≠ 0 := by
  cases o1 with
  | none => simp [simple_new]
  | some a =>
    cases o3 with
    | none => simp [simple_new]
    | some v =>
      by_cases hv : v = 0
      · simp [simple_new, hv]
      · simp [simple_new, hv]

theorem simple_new_zero_step (o1 o2 : Option Int) :
    (simple_new o1 o2 (some 0)).step = 1 := by
  cases o1 <;> simp [simple_new]

theorem floordiv_some_iff (r : Rng) (k : Int) :
    (floordiv r k).isSome = true ↔
      (k ≠ 0 ∧ (rlen r = 0 ∨ rlen r = 1 ∨ (k ∣ r.start ∧ k ∣ r.step))) := by
  unfold floordiv
  split_ifs with h1 h2 h3
  · simp only [Option.isSome_some, true_iff]
    refine ⟨h1, ?_⟩
    rcases h2 with h | h
    · exact Or.inl h
    · exact Or.inr (Or.inr ⟨(fmod_eq_zero_iff_dvd _ _).mp h.1,
        (fmod_eq_zero_iff_dvd _ _).mp h.2⟩)
  · simp only [Option.isSome_some, true_iff]
    exact ⟨h1, Or.inr (Or.inl h3)⟩
  · simp only [Option.isSome_none, Bool.false_eq_true, false_iff]
    rintro ⟨-, hr⟩
    rcases hr with h | h | h
    · exact h2 (Or.inl h)
    · exact h3 h
    · exact h2 (Or.inr ⟨(fmod_eq_zero_iff_dvd _ _).mpr h.1,
        (fmod_eq_zero_iff_dvd _ _).mpr h.2⟩)
  · simp only [Option.isSome_none, Bool.false_eq_true, false_iff]
    rintro ⟨hk, -⟩
    exact h1 hk

theorem floordiv_elems (r : Rng) (k : Int) (hstep : r.step ≠ 0) (r2 : Rng)
    (hr : floordiv r k = some r2) :
    tolist r2 = (tolist r).map (fun z => z.fdiv k) := by
  unfold floordiv at hr
  split_ifs at hr with h1 h2 h3
  · injection hr with hr2
    subst hr2
    rcases h2 with hz | ⟨hfa, hfs⟩
    · have htl : tolist r = [] := by
        apply List.length_eq_zero.mp
        rw [length_tolist]
        omega
      rw [htl, List.map_nil, hz]
      have hstop : r.start.fdiv k + ((0 : Nat) : Int) * (r.step.fdiv k) =
          r.start.fdiv k := by push_cast; ring
      rw [hstop, simple_new_some]
      unfold tolist
      rw [rlen_start_eq_stop]
      rfl
    · have hda := (fmod_eq_zero_iff_dvd _ _).mp hfa
      have hds := (fmod_eq_zero_iff_dvd _ _).mp hfs
      obtain ⟨a0, ha0⟩ := hda
      obtain ⟨s0, hs0⟩ := hds
      have hfa2 : r.start.fdiv k = a0 := by
        rw [ha0, Int.mul_fdiv_cancel_left _ h1]
      have hfs2 : r.step.fdiv k = s0 := by
        rw [hs0, Int.mul_fdiv_cancel_left _ h1]
      have hs0ne : s0 ≠ 0 := by
        intro hc
        rw [hc, mul_zero] at hs0
        exact hstep hs0
      rw [hfa2, hfs2, simple_new_some, if_neg hs0ne]
      unfold tolist
      rw [rlen_canonical a0 s0 (rlen r) hs0ne, List.map_map]
      apply List.map_congr_left
      intro i _
      simp only [Function.comp_apply]
      rw [ha0, hs0]
      have he : k * a0 + (i : Int) * (k * s0) = k * (a0 + (i : Int) * s0) := by ring
      rw [he, Int.mul_fdiv_cancel_left _ h1]
  · injection hr with hr2
    subst hr2
    rw [tolist_one r h3, List.map_singleton, simple_new_some,
      if_neg (one_ne_zero : (1 : Int) ≠ 0)]
    unfold tolist
    rw [rlen_mk, if_pos (by omega : (0 : Int) < 1), if_pos (by omega)]
    have he : r.start.fdiv k + 1 - r.start.fdiv k - 1 = 0 := by ring
    rw [he, Int.zero_ediv]
    have hr1 : ((0 : Int) + 1).toNat = 1 := rfl
    rw [hr1]
    have hrange : List.range 1 = [0] := rfl
    rw [hrange]
    simp

theorem range_index_new_step_ne (c1 c2 c3 : Option Int) (r : Rng)
    (h : range_index_new c1 c2 c3 = .ok r) : r.step ≠ 0 := by
  simp only [range_index_new] at h
  by_cases h1 : (c1 = none ∧ c2 = none ∧ c3 = none)
  · rw [if_pos h1] at h
    cases h
  · rw [if_neg h1] at h
    by_cases h2 : c3.getD 1 = 0
    · rw [if_pos h2] at h
      cases h
    · rw [if_neg h2] at h
      have h3 := Except.ok.inj h
      rw [← h3]
      exact h2

theorem equals_iff_fields (A B : Rng) (h2 : 2 ≤ rlen A) :
    equals A B = true ↔ (rlen A = rlen B ∧ A.start = B.start ∧ A.step = B.step) := by
  unfold equals
  split_ifs with g1 g2 g3 g4
  · constructor
    · intro hc
      exact absurd hc (by simp)
    · rintro ⟨hc, -, -⟩
      exact absurd hc g1
  · omega
  · constructor
    · intro hc
      exact absurd hc (by simp)
    · rintro ⟨-, hc, -⟩
      exact absurd hc g3
  · omega
  · rw [decide_eq_true_eq]
    constructor
    · intro hstep
      exact ⟨not_not.mp g1, not_not.mp g3, hstep⟩
    · rintro ⟨-, -, h⟩
      exact h

theorem range_any_spec (r : Rng) (h : r.step ≠ 0) :
    range_any r = true ↔ (0 < rlen r ∧ ¬(rlen r = 1 ∧ r.start = 0)) := by
  unfold range_any
  rw [List.any_eq_true]
  constructor
  · rintro ⟨z, hz, hz2⟩
    have hlen : 0 < rlen r := by
      by_contra hc
      push_neg at hc
      have hnil : tolist r = [] := by
        apply List.length_eq_zero.mp
        rw [length_tolist]
        omega
      rw [hnil] at hz
      exact List.not_mem_nil z hz
    refine ⟨hlen, ?_⟩
    rintro ⟨h1len, hstart⟩
    rw [tolist_one r h1len, hstart] at hz
    have hz0 : z = 0 := by
      simpa using hz
    exact (of_decide_eq_true hz2) hz0
  · rintro ⟨hlen, hnot⟩
    by_cases h1 : rlen r = 1
    · have hstart : r.start ≠ 0 := fun hc => hnot ⟨h1, hc⟩
      refine ⟨r.start, ?_, by simp [hstart]⟩
      rw [tolist_one r h1]
      simp
    · by_cases hstart : r.start = 0
      · refine ⟨r.start + r.step, ?_, by simp [hstart, h]⟩
        rw [mem_tolist']
        exact ⟨1, by omega, by push_cast; ring⟩
      · refine ⟨r.start, ?_, by simp [hstart]⟩
        rw [mem_tolist']
        exact ⟨0, by omega, by push_cast; ring⟩

theorem range_index_new_single (v : Int) :
    range_index_new (some v) none none = .ok ⟨0, v, 1⟩ := rfl

theorem range_index_new_errors (c1 c2 c3 : Option Int) :
    (range_index_new c1 c2 c3 = .error .invalidConstruction ↔
      (c1 = none ∧ c2 = none ∧ c3 = none)) ∧
    (range_index_new c1 c2 c3 = .error .invalidStep ↔ c3.getD 1 = 0) := by
  constructor
  · simp only [range_index_new]
    by_cases h1 : (c1 = none ∧ c2 = none ∧ c3 = none)
    · rw [if_pos h1]
      simp [h1]
    · rw [if_neg h1]
      by_cases h2 : c3.getD 1 = 0
      · rw [if_pos h2]
        constructor
        · intro hc
          exact absurd (Except.error.inj hc) (by decide)
        · intro hc
          exact absurd hc h1
      · rw [if_neg h2]
        constructor
        · intro hc
          cases hc
        · intro hc
          exact absurd hc h1
  · simp only [range_index_new]
    by_cases h1 : (c1 = none ∧ c2 = none ∧ c3 = none)
    · rw [if_pos h1]
      obtain ⟨-, -, h13⟩ := h1
      subst h13
      constructor
      · intro hc
        exact absurd (Except.error.inj hc) (by decide)
      · intro hc
        simp at hc
    · rw [if_neg h1]
      by_cases h2 : c3.getD 1 = 0
      · rw [if_pos h2]
        simp [h2]
      · rw [if_neg h2]
        constructor
        · intro hc
          cases hc
        · intro hc
          exact absurd hc h2

theorem getitem_int_spec (r : Rng) (i : Int) :
    ((0 ≤ i ∧ i < (rlen r : Int)) → getitem_int r i = some (r.start + i * r.step)) ∧
    ((-(rlen r : Int) ≤ i ∧ i < 0) →
      getitem_int r i = some (r.start + ((rlen r : Int) + i) * r.step)) ∧
    (getitem_int r i = none ↔ (i < -(rlen r : Int) ∨ (rlen r : Int) ≤ i)) := by
  unfold getitem_int
  refine ⟨?_, ?_, ?_⟩
  · rintro ⟨h1, h2⟩
    rw [if_pos ⟨h1, h2⟩]
  · rintro ⟨h1, h2⟩
    rw [if_neg (by omega), if_pos (by omega)]
    have he : i + (rlen r : Int) = (rlen r : Int) + i := by ring
    rw [he]
  · by_cases g1 : (0 ≤ i ∧ i < (rlen r : Int))
    · rw [if_pos g1]
      constructor
      · intro hc
        exact absurd hc (Option.some_ne_none _)
      · intro hc
        exact absurd hc (by omega)
    · rw [if_neg g1]
      by_cases g2 : (i < 0 ∧ 0 ≤ i + (rlen r : Int))
      · rw [if_pos g2]
        constructor
        · intro hc
          exact absurd hc (Option.some_ne_none _)
        · intro hc
          exact absurd hc (by omega)
      · rw [if_neg g2]
        constructor
        · intro _
          omega
        · intro _
          rfl

/-- C1: for all progressions A and B (nonzero steps, the class invariant),
the element set of `intersection A B` equals the intersection of the element
sets of A and B — membership agrees for every integer — and `intersection A B`
is set-equal to `intersection B A` (orientation may differ, so the assertion
is on elements, not on triples). -/
theorem C1_intersection_elements (A B : Rng) (hA : A.step ≠ 0) (hB : B.step ≠ 0)
    (x : Int) :
    (x ∈ tolist (intersection A B) ↔ (x ∈ tolist A ∧ x ∈ tolist B)) ∧
    (x ∈ tolist (intersection A B) ↔ x ∈ tolist (intersection B A)) := by
  have h1 := intersection_mem A B hA hB x
  have h2 := intersection_mem B A hB hA x
  refine ⟨h1, ?_⟩
  rw [h1, h2, and_comm]

theorem C1_intersection_elements_witness :
    ((7 : Int) ∈ tolist (intersection ⟨0, 10, 1⟩ ⟨5, 15, 1⟩) ↔
      ((7 : Int) ∈ tolist ⟨0, 10, 1⟩ ∧ (7 : Int) ∈ tolist ⟨5, 15, 1⟩)) ∧
    ((7 : Int) ∈ tolist (intersection ⟨0, 10, 1⟩ ⟨5, 15, 1⟩) ↔
      (7 : Int) ∈ tolist (intersection ⟨5, 15, 1⟩ ⟨0, 10, 1⟩)) :=
  C1_intersection_elements ⟨0, 10, 1⟩ ⟨5, 15, 1⟩ (by decide) (by decide) 7

/-- C2: failing-input evaluation for the union claim.  With the ascending sort
hint, `union` of A = range(0, 8, 4) = [0, 4] and B = range(1, 9, 4) = [1, 5]
takes the half-step-interleave branch (their phases differ by 1, which is
merely ≤ step/2, not an exact half-step offset) and returns
range(0, 7, 2) = [0, 2, 4, 6]: the element 1 of B is lost and the elements
2 and 6 are invented, so the result is not the set union {0, 1, 4, 5}. -/
theorem C2_union_halfstep_bug :
    union ⟨0, 8, 4⟩ ⟨1, 9, 4⟩ = Sum.inl ⟨0, 7, 2⟩ ∧
    tolist ⟨0, 8, 4⟩ = [0, 4] ∧ tolist ⟨1, 9, 4⟩ = [1, 5] ∧
    tolist ⟨0, 7, 2⟩ = [0, 2, 4, 6] := by decide

/-- C3: for every progression (nonzero step), every integral scalar k and
every op in {+, -, *} with the step wiring the source installs, the element
sequence of the binary operation equals `op(x, k)` applied to each element in
order — including the closed-form branches and, for `* 0`, the dense
fallback. -/
theorem C3_binary_op_elementwise (r : Rng) (k : Int) (o : ArithOp)
    (h : r.step ≠ 0) :
    (evaluate_numeric_binop r (.pint k) o.pyOp o.stepOp).elems =
      (tolist r).map (fun z => ((o.onInt z k : Int) : ℚ)) :=
  evaluate_numeric_binop_arith r k o h

theorem C3_binary_op_elementwise_witness :
    (evaluate_numeric_binop ⟨0, 6, 2⟩ (.pint 3) ArithOp.mul.pyOp
      ArithOp.mul.stepOp).elems =
      (tolist ⟨0, 6, 2⟩).map (fun z => ((ArithOp.mul.onInt z 3 : Int) : ℚ)) :=
  C3_binary_op_elementwise ⟨0, 6, 2⟩ 3 ArithOp.mul (by decide)

/-- C4 counterexample: floor-dividing the length-one progression
range(5, 6, 1) by the scalar 2 keeps the closed Progression form even though
2 evenly divides neither the start 5 nor the step 1 — refuting the claim that
the form is preserved only if the scalar divides start and step, with start
still required to divide evenly in the length-one case. -/
theorem C4_floordiv_counterexample :
    (floordiv ⟨5, 6, 1⟩ 2).isSome = true ∧
    ¬(((2 : Int) ∣ (5 : Int) ∧ (2 : Int) ∣ (1 : Int)) ∨
      (rlen ⟨5, 6, 1⟩ = 1 ∧ (2 : Int) ∣ (5 : Int))) := by decide

/-- C4 (amended): floor division of a progression by a scalar preserves the
Progression form exactly when the scalar is a nonzero integer and the
progression is empty, or has length 1 (with no divisibility requirement at
all), or the scalar evenly divides both start and step; and in every
preserved case the resulting progression's elements are the elementwise floor
divisions of the original elements. -/
theorem C4_floordiv_amended (r : Rng) (k : Int) (h : r.step ≠ 0) :
    ((floordiv r k).isSome = true ↔
      (k ≠ 0 ∧ (rlen r = 0 ∨ rlen r = 1 ∨ (k ∣ r.start ∧ k ∣ r.step)))) ∧
    (∀ r2 : Rng, floordiv r k = some r2 →
      tolist r2 = (tolist r).map (fun z => z.fdiv k)) :=
  ⟨floordiv_some_iff r k, fun r2 hr => floordiv_elems r k h r2 hr⟩

theorem C4_floordiv_amended_witness :
    tolist ⟨0, 5, 1⟩ = (tolist ⟨0, 10, 2⟩).map (fun z => z.fdiv 2) :=
  (C4_floordiv_amended ⟨0, 10, 2⟩ 2 (by decide)).2 ⟨0, 5, 1⟩ (by decide)

/-- C5: true division by a nonzero integral scalar divides the step, the
resulting Python float is never `is_integer`, and the operation therefore
returns the dense floating-point fallback whose elements are exactly the
elementwise quotients — the closed float-progression variant the claim
mentions does not exist in this host (`RangeIndex` is int64-only, its
`_validate_dtype` rejects any other dtype), which is precisely the claim's
fallback clause. -/
theorem C5_truediv_dense_float (r : Rng) (k : Int) (h : r.step ≠ 0)
    (hk : k ≠ 0) :
    evaluate_numeric_binop r (.pint k) pyTruediv (some pyTruediv) =
      .denseRes ((tolist r).map
        (fun (z : Int) => PyNum.pfloat ((z : ℚ) / (k : ℚ)))) ∧
    (evaluate_numeric_binop r (.pint k) pyTruediv (some pyTruediv)).elems =
      (tolist r).map (fun (z : Int) => ((z : ℚ) / (k : ℚ))) := by
  have h1 := evaluate_numeric_binop_truediv r k h hk
  refine ⟨h1, ?_⟩
  rw [h1]
  simp only [BinopResult.elems, List.map_map]
  apply List.map_congr_left
  intro z _
  simp only [Function.comp_apply, PyNum.toQ]

theorem C5_truediv_dense_float_witness :
    evaluate_numeric_binop ⟨0, 10, 2⟩ (.pint 2) pyTruediv (some pyTruediv) =
      .denseRes ((tolist ⟨0, 10, 2⟩).map
        (fun (z : Int) => PyNum.pfloat ((z : ℚ) / ((2 : Int) : ℚ)))) :=
  (C5_truediv_dense_float ⟨0, 10, 2⟩ 2 (by decide) (by decide)).1

/-- C6: construction from bounds fails with `InvalidConstruction` exactly when
start, stop and step are all absent; fails with `InvalidStep` exactly when the
resolved step (the given step, defaulting to 1) is 0; and a single positional
value v is interpreted as the stop, with start 0 and step 1. -/
theorem C6_from_bounds (c1 c2 c3 : Option Int) (v : Int) :
    (range_index_new c1 c2 c3 = .error .invalidConstruction ↔
      (c1 = none ∧ c2 = none ∧ c3 = none)) ∧
    (range_index_new c1 c2 c3 = .error .invalidStep ↔ c3.getD 1 = 0) ∧
    range_index_new (some v) none none = .ok ⟨0, v, 1⟩ :=
  ⟨(range_index_new_errors c1 c2 c3).1, (range_index_new_errors c1 c2 c3).2,
    range_index_new_single v⟩

/-- C7: scalar positional access on a progression of length n returns
`start + i*step` for 0 ≤ i < n, returns `start + (n + i)*step` for
-n ≤ i < 0 (negative indices count from the end), and fails with the
index-out-of-range error exactly when i lies outside [-n, n). -/
theorem C7_element_at (r : Rng) (i : Int) :
    ((0 ≤ i ∧ i < (rlen r : Int)) →
      getitem_int r i = some (r.start + i * r.step)) ∧
    ((-(rlen r : Int) ≤ i ∧ i < 0) →
      getitem_int r i = some (r.start + ((rlen r : Int) + i) * r.step)) ∧
    (getitem_int r i = none ↔ (i < -(rlen r : Int) ∨ (rlen r : Int) ≤ i)) :=
  getitem_int_spec r i

theorem C7_element_at_witness :
    getitem_int ⟨10, 0, -2⟩ (-1) =
      some (10 + ((rlen ⟨10, 0, -2⟩ : Int) + (-1)) * (-2)) :=
  (C7_element_at ⟨10, 0, -2⟩ (-1)).2.1 (by decide)

/-- C8: equality of two progressions holds iff they denote the same elements
in the same order (the same materialized list); for length at most 1
differing stop or step still compare equal (covered by the same-list
criterion), and for length at least 2 equality holds exactly when start and
step agree and the stops agree after canonicalizing stop to
`start + length*step`. -/
theorem C8_equals_iff (A B : Rng) (hA : A.step ≠ 0) :
    (equals A B = true ↔ tolist A = tolist B) ∧
    (2 ≤ rlen A →
      (equals A B = true ↔
        (A.start = B.start ∧ A.step = B.step ∧
          A.start + (rlen A : Int) * A.step =
            B.start + (rlen B : Int) * B.step))) := by
  refine ⟨equals_iff_tolist_eq A B, ?_⟩
  intro h2
  rw [equals_iff_fields A B h2]
  constructor
  · rintro ⟨hlen, hstart, hstep⟩
    refine ⟨hstart, hstep, ?_⟩
    rw [hlen, hstart, hstep]
  · rintro ⟨hstart, hstep, hcanon⟩
    rw [hstart, hstep] at hcanon
    have h5 : (rlen A : Int) * B.step = (rlen B : Int) * B.step := by omega
    have hB : B.step ≠ 0 := hstep ▸ hA
    have h6 : (rlen A : Int) = (rlen B : Int) := mul_right_cancel₀ hB h5
    exact ⟨by omega, hstart, hstep⟩

theorem C8_equals_iff_witness :
    (equals ⟨0, 6, 2⟩ ⟨0, 5, 2⟩ = true ↔ tolist ⟨0, 6, 2⟩ = tolist ⟨0, 5, 2⟩) :=
  (C8_equals_iff ⟨0, 6, 2⟩ ⟨0, 5, 2⟩ (by decide)).1

/-- C9: `any()` returns true iff the progression is nonempty and it is not the
single-element progression whose sole element (its start) is 0. -/
theorem C9_any_formula (r : Rng) (h : r.step ≠ 0) :
    range_any r = true ↔ (0 < rlen r ∧ ¬(rlen r = 1 ∧ r.start = 0)) :=
  range_any_spec r h

theorem C9_any_formula_witness :
    range_any ⟨0, 1, 1⟩ = true ↔
      (0 < rlen ⟨0, 1, 1⟩ ∧ ¬(rlen ⟨0, 1, 1⟩ = 1 ∧ Rng.start ⟨0, 1, 1⟩ = 0)) :=
  C9_any_formula ⟨0, 1, 1⟩ (by decide)

/-- C10: instances built by the fast-path constructor `_simple_new` always
carry a nonzero step (a falsy step — `None` or `0` — is silently replaced by
1 rather than rejected), as do instances accepted by the validating
constructor; a nonzero step makes the materialized elements pairwise
distinct, so the constants returned by `is_unique` (True) and
`has_duplicates` (False) are truthful. -/
theorem C10_step_invariant_unique (o1 o2 o3 c1 c2 c3 : Option Int)
    (r0 r : Rng) (h0 : range_index_new c1 c2 c3 = .ok r0) (h : r.step ≠ 0) :
    (simple_new o1 o2 o3).step ≠ 0 ∧
    (simple_new o1 o2 (some 0)).step = 1 ∧
    r0.step ≠ 0 ∧
    (tolist r).Nodup ∧ is_unique r = true ∧ has_duplicates r = false :=
  ⟨simple_new_step_ne o1 o2 o3, simple_new_zero_step o1 o2,
    range_index_new_step_ne c1 c2 c3 r0 h0, nodup_tolist r h, rfl, rfl⟩

theorem C10_step_invariant_unique_witness :
    (simple_new (some 3) (some 7) (some 0)).step ≠ 0 ∧
    (simple_new (some 3) (some 7) (some 0)).step = 1 ∧
    Rng.step ⟨0, 5, 1⟩ ≠ 0 ∧
    (tolist ⟨0, 5, 1⟩).Nodup ∧ is_unique ⟨0, 5, 1⟩ = true ∧
    has_duplicates ⟨0, 5, 1⟩ = false :=
  C10_step_invariant_unique (some 3) (some 7) (some 0) (some 5) none none
    ⟨0, 5, 1⟩ ⟨0, 5, 1⟩ rfl (by decide)
